import Mathlib

/-!
A shallow embedding of `sql2soql.py` (the SQL → SOQL translator of the
ChatSF repository) and proofs about the behaviour its specification claims.

Strings are modelled as `List Char`.  The regular-expression based scanning
of the source is embedded as explicit leftmost-match scanners with the same
semantics (case-insensitive keyword matching, lazy `.*?` groups that do not
cross newlines, greedy whitespace/word runs, `$` matching at the end of the
string or just before a final newline).  Character classes are modelled over
ASCII, matching the characters the source's patterns use.

Python's in-place list mutation matters here: wildcard expansion makes the
working field list an alias of the caller's schema column list, so later
appends mutate the schema.  The embedding tracks this with an explicit
`aliased` flag and threads the (possibly updated) schema through every
fix-up step, and the remove-while-iterating loop of the hallucinated-column
pruning is embedded index by index exactly as CPython executes it.
-/

namespace ChatSF

abbrev Str := List Char

/-- ASCII model of the `\s` class used by `re` and of `str.strip`. -/
def isSpaceChar (c : Char) : Bool :=
  c = ' ' || c = '\t' || c = '\n' || c = '\r' || c = '\x0b' || c = '\x0c'

/-- ASCII model of the `\d` class. -/
def isDigitChar (c : Char) : Bool :=
  '0' ≤ c && c ≤ '9'

/-- ASCII model of the `\w` class. -/
def isWordChar (c : Char) : Bool :=
  c.isAlpha || isDigitChar c || c = '_'

/-- The `[\w\d_\.]` class of the field tokenizer. -/
def isWordDotChar (c : Char) : Bool :=
  isWordChar c || c = '.'

/-- Case-insensitive prefix test (the effect of `re.IGNORECASE` on a
literal keyword). -/
def startsWithCI : Str → Str → Bool
  | [], _ => true
  | _ :: _, [] => false
  | p :: ps, c :: cs => (p.toLower = c.toLower) && startsWithCI ps cs

/-- Case-sensitive prefix test (plain `str` operations and flag-less
patterns). -/
def startsWithStr (p s : Str) : Bool := p.isPrefixOf s

/-- `str.strip()` on both ends. -/
def stripChars (s : Str) : Str :=
  ((s.dropWhile isSpaceChar).reverse.dropWhile isSpaceChar).reverse

/-- Match, at the start of `s`, a sequence of keywords each followed by a
mandatory greedy whitespace run (e.g. `GROUP\s+BY\s+`).  Returns the
remainder after the final whitespace run. -/
def matchKwsWs : List Str → Str → Option Str
  | [], s => some s
  | kw :: rest, s =>
    if startsWithCI kw s then
      match s.drop kw.length with
      | [] => none
      | c :: r => if isSpaceChar c then matchKwsWs rest ((c :: r).dropWhile isSpaceChar) else none
    else none

/-- Leftmost search for `kw₁\s+kw₂\s+…` (e.g. `select\s+`, `WHERE\s+`,
`GROUP\s+BY\s+`); returns the remainder after the match, the text before
the match being discarded exactly as `sql = sql[match.end(0):]` does. -/
def findKwWsEnd (kws : List Str) : Str → Option Str
  | [] => none
  | c :: r =>
    match matchKwsWs kws (c :: r) with
    | some rest => some rest
    | none => findKwWsEnd kws r

/-- Leftmost search for `(FROM\s+)(\w+)\s*`: the table token and the
remainder after the trailing whitespace run. -/
def findFromTable : Str → Option (Str × Str)
  | [] => none
  | c :: r =>
    match matchKwsWs [('f' :: 'r' :: 'o' :: 'm' :: [])] (c :: r) with
    | some rest =>
      let w := rest.takeWhile isWordChar
      if w = [] then findFromTable r
      else some (w, (rest.drop w.length).dropWhile isSpaceChar)
    | none => findFromTable r

/-- One start position of a lazy `(.*?)STOP` match: extend the group one
character at a time (never across a newline), testing the stop condition
before each extension.  `pre` is the group read so far, reversed. -/
def lazyInner (check : Str → Bool) (pre : Str) : Str → Option (Str × Str)
  | [] => if check [] then some (pre.reverse, []) else none
  | c :: r =>
    if check (c :: r) then some (pre.reverse, c :: r)
    else if c = '\n' then none
    else lazyInner check (c :: pre) r

/-- Leftmost search for `(.*?)STOP`: try each start position in turn; the
skipped prefix still belongs to `sql[:match.end(1)]`. -/
def lazySearchAux (check : Str → Bool) (skipped : Str) : Str → Option (Str × Str)
  | [] =>
    match lazyInner check [] [] with
    | some (pre, r) => some (skipped.reverse ++ pre, r)
    | none => none
  | c :: s =>
    match lazyInner check [] (c :: s) with
    | some (pre, r) => some (skipped.reverse ++ pre, r)
    | none => lazySearchAux check (c :: skipped) s

/-- Stop condition of `(.*?)from\s+`. -/
def fromWsAt (s : Str) : Bool :=
  startsWithCI ('f' :: 'r' :: 'o' :: 'm' :: []) s &&
    (match s.drop 4 with
     | c :: _ => isSpaceChar c
     | [] => false)

/-- The `(.*?)from\s+` search that isolates the field-list text. -/
def lazyFromSearch (s : Str) : Option (Str × Str) :=
  lazySearchAux fromWsAt [] s

/-- Stop condition of `(.*?)(KW₁|KW₂|…|$)`: one of the keywords
(case-insensitively) or Python's `$` (end of string, or just before a
final newline). -/
def stopKwOrEnd (kws : List Str) (s : Str) : Bool :=
  kws.any (fun kw => startsWithCI kw s) || s = [] || s = ['\n']

/-- Total version of the `(.*?)(KW…|$)` search: the `$` alternative means
a match always exists, so the fallback branch is unreachable. -/
def lazySearchEnd (kws : List Str) (s : Str) : Str × Str :=
  match lazySearchAux (stopKwOrEnd kws) [] s with
  | some pr => pr
  | none => (s, [])

/-- `\(.*?\)` : a parenthesis group closed at the first `)` with no
newline in between; on failure the `{0,1}` quantifier backs off to zero
occurrences. -/
def parenScan (acc : Str) : Str → Option (Str × Str)
  | [] => none
  | c :: r =>
    if c = ')' then some (('(' :: acc.reverse) ++ [')'], r)
    else if c = '\n' then none
    else parenScan (c :: acc) r

/-- One token of the field-list pattern `\*|[\w\d_\.]+(\(.*?\)){0,1}`,
tried at the current position. -/
def tokenAt (s : Str) : Option (Str × Str) :=
  match s with
  | '*' :: r => some (['*'], r)
  | _ =>
    let w := s.takeWhile isWordDotChar
    if w = [] then none
    else
      match s.drop w.length with
      | '(' :: r2 =>
        match parenScan [] r2 with
        | some (p, r) => some (w ++ p, r)
        | none => some (w, s.drop w.length)
      | _ => some (w, s.drop w.length)

/-- `re.findall` of the field-list pattern: scan left to right, skipping
characters where no token starts. -/
def tokenizeGo : Str → Nat → List Str
  | _, 0 => []
  | [], _ => []
  | c :: r, fuel + 1 =>
    if isSpaceChar c then tokenizeGo r fuel
    else
      match tokenAt (c :: r) with
      | some (t, r') => t :: tokenizeGo r' fuel
      | none => tokenizeGo r fuel

/-- `list_fields`: the tokenized field list. -/
def tokenizeFields (s : Str) : List Str := tokenizeGo s s.length

/-- Does `pat` occur (case-insensitively) anywhere in `s`? -/
def containsCI (pat : Str) : Str → Bool
  | [] => startsWithCI pat []
  | c :: r => startsWithCI pat (c :: r) || containsCI pat r

/-- The aggregate-function detector `(count\(|avg\(|count_distinct\(|min\(|max\(|sum\()`. -/
def isAggregate (fields : Str) : Bool :=
  containsCI "count(".toList fields || containsCI "avg(".toList fields ||
  containsCI "count_distinct(".toList fields || containsCI "min(".toList fields ||
  containsCI "max(".toList fields || containsCI "sum(".toList fields

/-- Leftmost search for `(LIMIT\s+)(\d+)\s*`; yields the digit group. -/
def findLimit : Str → Option Str
  | [] => none
  | c :: r =>
    match matchKwsWs ["limit".toList] (c :: r) with
    | some rest =>
      let d := rest.takeWhile isDigitChar
      if d = [] then findLimit r else some d
    | none => findLimit r

/-- The clause fragments extracted by part 1 of `sql2soql`. -/
structure Clauses where
  fields : Str
  listFields : List Str
  aggregate : Bool
  table : Str
  whereC : Option Str
  groupby : Option Str
  orderby : Option Str
  limit : Option Str
  deriving Repr, DecidableEq

/-- Extract an optional clause: search for its introducing keywords, then
split the remainder at the first stop keyword (or the end). -/
def extractOpt (kws stops : List Str) (s : Str) : Option Str × Str :=
  match findKwWsEnd kws s with
  | none => (none, s)
  | some r =>
    let pr := lazySearchEnd stops r
    (some (stripChars pr.1), pr.2)

/-- Part 1 of `sql2soql`: break the statement apart.  `none` models the
unhandled `AttributeError` raised when a mandatory boundary is missing. -/
def parseClauses (sql : Str) : Option Clauses :=
  match findKwWsEnd ["select".toList] sql with
  | none => none
  | some rest1 =>
    match lazyFromSearch rest1 with
    | none => none
    | some (pre, rest2) =>
      match findFromTable rest2 with
      | none => none
      | some (table, rest3) =>
        let fields := stripChars pre
        let w := extractOpt ["where".toList] ["group".toList, "order".toList, "limit".toList] rest3
        let g := extractOpt ["group".toList, "by".toList] ["order".toList, "limit".toList] w.2
        let o := extractOpt ["order".toList, "by".toList] ["limit".toList] g.2
        some { fields := fields
               listFields := tokenizeFields fields
               aggregate := isAggregate fields
               table := table
               whereC := w.1
               groupby := g.1
               orderby := o.1
               limit := findLimit o.2 }

/-- `str(n)` for the positive default cap. -/
def digitChar : Nat → Char
  | 0 => '0' | 1 => '1' | 2 => '2' | 3 => '3' | 4 => '4'
  | 5 => '5' | 6 => '6' | 7 => '7' | 8 => '8' | _ => '9'

def natDigitsGo : Nat → Nat → Str → Str
  | _, 0, acc => acc
  | n, fuel + 1, acc =>
    if n < 10 then digitChar n :: acc
    else natDigitsGo (n / 10) fuel (digitChar (n % 10) :: acc)

def natDigits (n : Nat) : Str := natDigitsGo n (n + 1) []

/-- Lines 110–117: keep an explicit `LIMIT` verbatim, otherwise give a
non-aggregate query the positive default cap. -/
def resolveLimit (explicit : Option Str) (aggregate : Bool) (cap : Int) : Option Str :=
  match explicit with
  | some d => some d
  | none => if !aggregate && cap > 0 then some (natDigits cap.toNat) else none

/-! ## Part 2: the heuristic fix-up engine -/

/-- The caller-supplied `table2columns` dictionary, in insertion order. -/
abbrev Schema := List (Str × List Str)

def lookupSchema (t : Str) : Schema → Option (List Str)
  | [] => none
  | (k, v) :: r => if k = t then some v else lookupSchema t r

def updateSchema (t : Str) (v : List Str) : Schema → Schema
  | [] => []
  | (k, w) :: r => if k = t then (k, v) :: r else (k, w) :: updateSchema t v r

/-- `', '.join(columns)`. -/
def joinComma : List Str → Str
  | [] => []
  | [x] => x
  | x :: y :: r => x ++ (',' :: ' ' :: []) ++ joinComma (y :: r)

/-- Working state of the fix-up engine.  `aliased` records that
`list_fields` is the *same Python list object* as the schema entry of
`table` (created by wildcard expansion), so that appends to it are
mutations of the schema. -/
structure FixState where
  fields : Str
  listFields : List Str
  schema : Schema
  aliased : Bool
  deriving Repr, DecidableEq

/-- Lines 123–130: `SELECT *` expansion. -/
def fixWildcard (c : Clauses) (schema : Schema) : FixState :=
  if c.fields = ['*'] then
    match lookupSchema c.table schema with
    | some cols => ⟨joinComma cols, cols, schema, true⟩
    | none => ⟨"FIELDS(ALL)".toList, c.listFields ++ ["Id".toList], schema, false⟩
  else ⟨c.fields, c.listFields, schema, false⟩

/-- Lines 132–134: `count(*)` → `count()` (text only). -/
def fixCountStar (s : FixState) : FixState :=
  if s.fields.map Char.toLower = "count(*)".toList then
    { s with fields := "count()".toList }
  else s

/-- Lines 136–140: force `Id` into the field list.  When the list aliases
the schema entry, the append mutates the schema as well. -/
def fixAddId (c : Clauses) (addId : Bool) (s : FixState) : FixState :=
  if !(s.listFields.contains "Id".toList) && !c.aggregate && addId then
    let lf := s.listFields ++ ["Id".toList]
    { fields := s.fields ++ ", Id".toList
      listFields := lf
      schema := if s.aliased then updateSchema c.table lf s.schema else s.schema
      aliased := s.aliased }
  else s

def endsIdLike (f : Str) : Bool :=
  startsWithStr ("Id".toList.reverse) f.reverse || startsWithStr ("Id__c".toList.reverse) f.reverse

/-- Lines 143–148 when `list_fields` is a fresh list: iterate over the
schema columns, appending the `…Id`/`…Id__c` ones that are missing. -/
def fkLoop (flds : Str) (lst : List Str) : List Str → Str × List Str
  | [] => (flds, lst)
  | f :: src =>
    if endsIdLike f && !(lst.contains f) then
      fkLoop (flds ++ (',' :: ' ' :: []) ++ f) (lst ++ [f]) src
    else fkLoop flds lst src

/-- Lines 143–148 when `list_fields` *is* the schema column list: the
loop then iterates over the very list it would append to, index by
index. -/
def fkLoopAliased (flds : Str) (lst : List Str) (idx : Nat) : Nat → Str × List Str
  | 0 => (flds, lst)
  | fuel + 1 =>
    match lst[idx]? with
    | none => (flds, lst)
    | some f =>
      if endsIdLike f && !(lst.contains f) then
        fkLoopAliased (flds ++ (',' :: ' ' :: []) ++ f) (lst ++ [f]) (idx + 1) fuel
      else fkLoopAliased flds lst (idx + 1) fuel

/-- Lines 142–148: foreign-key field injection. -/
def fixFk (c : Clauses) (addId : Bool) (s : FixState) : FixState :=
  if !c.aggregate && addId && (lookupSchema c.table s.schema).isSome then
    if s.aliased then
      let pr := fkLoopAliased s.fields s.listFields 0 s.listFields.length
      { fields := pr.1, listFields := pr.2,
        schema := updateSchema c.table pr.2 s.schema, aliased := true }
    else
      match lookupSchema c.table s.schema with
      | some cols =>
        let pr := fkLoop s.fields s.listFields cols
        { s with fields := pr.1, listFields := pr.2 }
      | none => s
  else s

/-- `list.remove(x)`: drop the first occurrence of `x`. -/
def removeFirst (x : Str) : List Str → List Str
  | [] => []
  | y :: r => if y = x then r else y :: removeFirst x r

/-- Lines 153–156 with a fresh `list_fields`: CPython's `for c in
list_fields` keeps an internal index that is *not* adjusted when
`remove` shifts the remaining elements left, so the element after a
removed one is skipped. -/
def pruneLoop (cols : List Str) (lst : List Str) (idx : Nat) : Nat → List Str
  | 0 => lst
  | fuel + 1 =>
    match lst[idx]? with
    | none => lst
    | some c =>
      if !(c.contains '(') && !(cols.contains c) then
        pruneLoop cols (removeFirst c lst) (idx + 1) fuel
      else pruneLoop cols lst (idx + 1) fuel

/-- Lines 153–156 when `cols` is the same object as `list_fields`. -/
def pruneLoopAliased (lst : List Str) (idx : Nat) : Nat → List Str
  | 0 => lst
  | fuel + 1 =>
    match lst[idx]? with
    | none => lst
    | some c =>
      if !(c.contains '(') && !(lst.contains c) then
        pruneLoopAliased (removeFirst c lst) (idx + 1) fuel
      else pruneLoopAliased lst (idx + 1) fuel

/-- Lines 150–159: hallucinated-column pruning, then the field text is
regenerated from the surviving entries. -/
def fixPrune (c : Clauses) (s : FixState) : FixState :=
  if (lookupSchema c.table s.schema).isSome then
    if s.aliased then
      let lf := pruneLoopAliased s.listFields 0 s.listFields.length
      { fields := joinComma lf, listFields := lf,
        schema := updateSchema c.table lf s.schema, aliased := true }
    else
      match lookupSchema c.table s.schema with
      | some cols =>
        let lf := pruneLoop cols s.listFields 0 s.listFields.length
        { s with fields := joinComma lf, listFields := lf }
      | none => s
  else s

/-- Part 2 of `sql2soql` on the field list. -/
def fixupFields (c : Clauses) (schema : Schema) (addId : Bool) : FixState :=
  fixPrune c (fixFk c addId (fixAddId c addId (fixCountStar (fixWildcard c schema))))

/-! ## WHERE-clause date handling -/

/-- `str.replace(pat, rep)`, scanning left to right. -/
def replaceAllGo (pat rep : Str) : Str → Nat → Str
  | s, 0 => s
  | [], _ => []
  | c :: r, fuel + 1 =>
    if startsWithStr pat (c :: r) then rep ++ replaceAllGo pat rep ((c :: r).drop pat.length) fuel
    else c :: replaceAllGo pat rep r fuel

/-- `re.sub(op + r"\s*" + const, rep, s)` for the pseudo-constant
rewrites (`<=\s*THIS_MONTH_END` and the like). -/
def subCmpGo (op cst rep : Str) : Str → Nat → Str
  | s, 0 => s
  | [], _ => []
  | c :: r, fuel + 1 =>
    if startsWithStr op (c :: r) then
      let r2 := ((c :: r).drop op.length).dropWhile isSpaceChar
      if startsWithStr cst r2 then rep ++ subCmpGo op cst rep (r2.drop cst.length) fuel
      else c :: subCmpGo op cst rep r fuel
    else c :: subCmpGo op cst rep r fuel

/-- The tail `(\(\))?\)` of the `LAST_DAY(TODAY…)`/`FIRST_DAY(TODAY…)`
patterns, greedy on the optional empty parens. -/
def funTailOpt (s : Str) : Option Str :=
  if startsWithStr "())".toList s then some (s.drop 3)
  else if startsWithStr ")".toList s then some (s.drop 1)
  else none

/-- `re.sub(op + r"\s*" + fn + r"(\(\))?\)", rep, s)`. -/
def subFunCmpGo (op fn rep : Str) : Str → Nat → Str
  | s, 0 => s
  | [], _ => []
  | c :: r, fuel + 1 =>
    if startsWithStr op (c :: r) then
      let r2 := ((c :: r).drop op.length).dropWhile isSpaceChar
      if startsWithStr fn r2 then
        match funTailOpt (r2.drop fn.length) with
        | some rest => rep ++ subFunCmpGo op fn rep rest fuel
        | none => c :: subFunCmpGo op fn rep r fuel
      else c :: subFunCmpGo op fn rep r fuel
    else c :: subFunCmpGo op fn rep r fuel

/-- Lines 164–169: the pseudo-constant rewrites, in source order. -/
def applyPseudoSubs (w : Str) : Str :=
  let w1 := replaceAllGo "TODAY()".toList "TODAY".toList w w.length
  let w2 := subCmpGo "<=".toList "THIS_MONTH_END".toList "< NEXT_MONTH".toList w1 w1.length
  let w3 := subCmpGo ">=".toList "THIS_MONTH_START".toList "> LAST_MONTH".toList w2 w2.length
  let w4 := subFunCmpGo "<=".toList "LAST_DAY(TODAY".toList "< NEXT_MONTH".toList w3 w3.length
  subFunCmpGo ">=".toList "FIRST_DAY(TODAY".toList "> LAST_MONTH".toList w4 w4.length

/-- `\d{1,2}` followed by a terminator, greedy with backtracking;
returns the number of characters consumed (terminator included). -/
def mdTwo (term : Char) : Str → Option (Nat × Str)
  | a :: b :: r =>
    if isDigitChar a then
      if isDigitChar b then
        match r with
        | t :: r' => if t = term then some (3, r') else none
        | [] => none
      else if b = term then some (2, r) else none
    else none
  | _ => none

/-- Length of a match of `'\d\d\d\d-\d{1,2}-\d{1,2}'` at the head of `s`. -/
def matchDateLen (s : Str) : Option Nat :=
  match s with
  | q :: d1 :: d2 :: d3 :: d4 :: h :: r =>
    if q = '\'' && isDigitChar d1 && isDigitChar d2 && isDigitChar d3 && isDigitChar d4 && h = '-' then
      match mdTwo '-' r with
      | some (n1, r2) =>
        match mdTwo '\'' r2 with
        | some (n2, _) => some (6 + n1 + n2)
        | none => none
      | none => none
    else none
  | _ => none

/-- Leftmost match of the quoted-date pattern: `(start, end)` offsets. -/
def findDateAux (i : Nat) : Str → Option (Nat × Nat)
  | [] => none
  | c :: r =>
    match matchDateLen (c :: r) with
    | some n => some (i, i + n)
    | none => findDateAux (i + 1) r

def findDate (s : Str) : Option (Nat × Nat) := findDateAux 0 s

/-- Lines 173–177: strip the closing then the opening quote of the first
quoted date, repeating until none remains. -/
def unquoteDates (w : Str) : Nat → Str
  | 0 => w
  | fuel + 1 =>
    match findDate w with
    | none => w
    | some (first, last) => unquoteDates ((w.eraseIdx (last - 1)).eraseIdx first) fuel

/-- Lines 162–177: the complete WHERE-clause fix-up. -/
def fixWhere (w : Str) : Str :=
  unquoteDates (applyPseudoSubs w) ((applyPseudoSubs w).length + 1)

/-! ## Part 3: reassembly -/

def assemble (fields table : Str) (w g o limit : Option Str) : Str :=
  "SELECT ".toList ++ fields ++ [' '] ++ "FROM ".toList ++ table ++ [' ']
  ++ (match w with | some x => "WHERE ".toList ++ x ++ [' '] | none => [])
  ++ (match g with | some x => "GROUP BY ".toList ++ x ++ [' '] | none => [])
  ++ (match o with | some x => "ORDER BY ".toList ++ x ++ [' '] | none => [])
  ++ (match limit with | some d => "LIMIT ".toList ++ d | none => [])

/-- The whole translator.  On success it returns the `(statement, table)`
pair of the source together with the schema as it stands after the call
(Python mutates it in place); `none` models the exception escaping from a
failed mandatory parse. -/
def sql2soql (sql : Str) (schema : Schema) (addId : Bool) (hardLimit : Int) :
    Option ((Str × Str) × Schema) :=
  match parseClauses sql with
  | none => none
  | some c =>
    let lim := resolveLimit c.limit c.aggregate hardLimit
    let fs := fixupFields c schema addId
    some ((assemble fs.fields c.table (c.whereC.map fixWhere) c.groupby c.orderby lim, c.table),
          fs.schema)

/-- The field list as it stands after fix-up (empty on parse failure). -/
def finalFields (sql : Str) (schema : Schema) (addId : Bool) : List Str :=
  match parseClauses sql with
  | some c => (fixupFields c schema addId).listFields
  | none => []

/-- The statement assembled with no LIMIT clause; every successful
translation is this text, possibly followed by `LIMIT …`. -/
def noLimitStmt (c : Clauses) (schema : Schema) (addId : Bool) : Str :=
  assemble (fixupFields c schema addId).fields c.table (c.whereC.map fixWhere)
    c.groupby c.orderby none

/-! ## Structural lemmas about the embedding -/

theorem mem_of_getElemOpt {α : Type} {l : List α} {n : Nat} {a : α} (h : l[n]? = some a) :
    a ∈ l := by
  obtain ⟨hlt, he⟩ := List.getElem?_eq_some.mp h
  exact he ▸ List.getElem_mem hlt

/-- Extraction leaves the aggregate flag equal to the detector applied to
the extracted field text. -/
theorem parseClauses_aggregate {sql : Str} {c : Clauses} (h : parseClauses sql = some c) :
    c.aggregate = isAggregate c.fields := by
  unfold parseClauses at h
  repeat' split at h
  any_goals exact absurd h (fun hh => Option.noConfusion hh)
  simp only [Option.some.injEq] at h
  subst h
  rfl

/-- Extraction tokenizes the extracted field text. -/
theorem parseClauses_listFields {sql : Str} {c : Clauses} (h : parseClauses sql = some c) :
    c.listFields = tokenizeFields c.fields := by
  unfold parseClauses at h
  repeat' split at h
  any_goals exact absurd h (fun hh => Option.noConfusion hh)
  simp only [Option.some.injEq] at h
  subst h
  rfl

/-- When the working list is the schema's own column list, the
foreign-key loop iterates over the list it would append to, so every
candidate is already a member and nothing happens. -/
theorem fkLoopAliased_eq (fuel : Nat) : ∀ (flds : Str) (lst : List Str) (idx : Nat),
    fkLoopAliased flds lst idx fuel = (flds, lst) := by
  induction fuel with
  | zero => intro flds lst idx; rfl
  | succ n ih =>
    intro flds lst idx
    unfold fkLoopAliased
    cases h : lst[idx]? with
    | none => rfl
    | some f =>
      have hm : f ∈ lst := mem_of_getElemOpt h
      simp [hm, ih]

/-- Likewise, when `cols` is the very list being iterated, every element
is a member and the pruning loop removes nothing. -/
theorem pruneLoopAliased_eq (fuel : Nat) : ∀ (lst : List Str) (idx : Nat),
    pruneLoopAliased lst idx fuel = lst := by
  induction fuel with
  | zero => intro lst idx; rfl
  | succ n ih =>
    intro lst idx
    unfold pruneLoopAliased
    cases h : lst[idx]? with
    | none => rfl
    | some c =>
      have hm : c ∈ lst := mem_of_getElemOpt h
      simp [hm, ih]

theorem updateSchema_self {t : Str} {v : List Str} : ∀ {s : Schema},
    lookupSchema t s = some v → updateSchema t v s = s := by
  intro s
  induction s with
  | nil => intro h; simp [lookupSchema] at h
  | cons p r ih =>
    intro h
    obtain ⟨k, w⟩ := p
    by_cases hk : k = t
    · simp only [lookupSchema, if_pos hk, Option.some.injEq] at h
      simp [updateSchema, hk, h]
    · simp only [lookupSchema, if_neg hk] at h
      simp [updateSchema, hk, ih h]

theorem lookupSchema_update {t : Str} (v : List Str) : ∀ {s : Schema},
    (lookupSchema t s).isSome → lookupSchema t (updateSchema t v s) = some v := by
  intro s
  induction s with
  | nil => intro h; simp [lookupSchema] at h
  | cons p r ih =>
    intro h
    obtain ⟨k, w⟩ := p
    by_cases hk : k = t
    · subst hk; simp [updateSchema, lookupSchema]
    · simp only [lookupSchema, if_neg hk] at h
      simp [updateSchema, lookupSchema, hk, ih h]

theorem fixCountStar_listFields (s : FixState) : (fixCountStar s).listFields = s.listFields := by
  unfold fixCountStar; split <;> rfl

theorem fixCountStar_schema (s : FixState) : (fixCountStar s).schema = s.schema := by
  unfold fixCountStar; split <;> rfl

theorem fixCountStar_aliased (s : FixState) : (fixCountStar s).aliased = s.aliased := by
  unfold fixCountStar; split <;> rfl

/-- In the aliased state (working list = schema entry), foreign-key
injection is a no-op: it rewrites the schema entry to the unchanged
list. -/
theorem fixFk_aliased (c : Clauses) (addId : Bool) (s : FixState) (h : s.aliased = true)
    (hlk : lookupSchema c.table s.schema = some s.listFields) :
    fixFk c addId s = s := by
  obtain ⟨fl, lf, sc, al⟩ := s
  simp only at h hlk
  subst h
  unfold fixFk
  split
  · simp [fkLoopAliased_eq, updateSchema_self hlk]
  · rfl

/-- In the aliased state, pruning removes nothing and only regenerates
the field text. -/
theorem fixPrune_aliased (c : Clauses) (s : FixState) (h : s.aliased = true)
    (hlk : lookupSchema c.table s.schema = some s.listFields) :
    fixPrune c s = { s with fields := joinComma s.listFields } := by
  obtain ⟨fl, lf, sc, al⟩ := s
  simp only at h hlk
  subst h
  have hs : (lookupSchema c.table sc).isSome = true := by rw [hlk]; rfl
  unfold fixPrune
  simp [hs, pruneLoopAliased_eq, updateSchema_self hlk]

/-- Full characterization of the fix-up in the wildcard-on-known-table
case: the field list becomes the schema's column list, with `Id`
appended — to the caller's schema list as well, through the alias — when
the forced-key flag is set and the schema lacks `Id`. -/
theorem fixupFields_wildcard (c : Clauses) (schema : Schema) (addId : Bool) (cols : List Str)
    (hf : c.fields = ['*']) (hlk : lookupSchema c.table schema = some cols)
    (hagg : c.aggregate = false) :
    fixupFields c schema addId =
      if cols.contains "Id".toList || !addId then
        { fields := joinComma cols, listFields := cols, schema := schema, aliased := true }
      else
        { fields := joinComma (cols ++ ["Id".toList]),
          listFields := cols ++ ["Id".toList],
          schema := updateSchema c.table (cols ++ ["Id".toList]) schema,
          aliased := true } := by
  have h1 : fixWildcard c schema = ⟨joinComma cols, cols, schema, true⟩ := by
    simp [fixWildcard, hf, hlk]
  unfold fixupFields
  rw [h1]
  obtain ⟨f2, hs2⟩ : ∃ f2, fixCountStar ⟨joinComma cols, cols, schema, true⟩ =
      ⟨f2, cols, schema, true⟩ := by
    unfold fixCountStar
    split
    · exact ⟨_, rfl⟩
    · exact ⟨_, rfl⟩
  rw [hs2]
  by_cases hc : (cols.contains "Id".toList || !addId) = true
  · -- `Id` already present, or no forced key: the append does not fire.
    have h3 : fixAddId c addId ⟨f2, cols, schema, true⟩ = ⟨f2, cols, schema, true⟩ := by
      unfold fixAddId
      rcases Bool.or_eq_true _ _ ▸ hc with hc1 | hc1
      · have hc2 : ('I' :: 'd' :: []) ∈ cols := by simpa using hc1
        simp [hc2]
      · simp only [Bool.not_eq_true'] at hc1
        simp [hc1]
    rw [h3]
    rw [fixFk_aliased c addId _ rfl hlk]
    rw [fixPrune_aliased c _ rfl hlk]
    rw [if_pos hc]
  · -- forced key on a schema without `Id`: the append mutates the
    -- aliased schema entry.
    have hcontains : cols.contains "Id".toList = false := by
      cases hcc : cols.contains "Id".toList
      · rfl
      · exact absurd (Bool.or_eq_true _ _ ▸ Or.inl hcc) hc
    have haddId : addId = true := by
      cases had : addId
      · exact absurd (Bool.or_eq_true _ _ ▸ Or.inr (by simp [had])) hc
      · rfl
    have h3 : fixAddId c addId ⟨f2, cols, schema, true⟩ =
        ⟨f2 ++ ", Id".toList, cols ++ ["Id".toList],
         updateSchema c.table (cols ++ ["Id".toList]) schema, true⟩ := by
      unfold fixAddId
      rw [hagg, haddId]
      have hc2 : ('I' :: 'd' :: []) ∉ cols := by
        simpa using hcontains
      simp [hc2]
    rw [h3]
    have hlk3 : lookupSchema c.table (updateSchema c.table (cols ++ ["Id".toList]) schema) =
        some (cols ++ ["Id".toList]) :=
      lookupSchema_update _ (by rw [hlk]; rfl)
    rw [fixFk_aliased c addId _ rfl hlk3]
    rw [fixPrune_aliased c _ rfl hlk3]
    rw [if_neg hc]

theorem fixWildcard_schema (c : Clauses) (schema : Schema) :
    (fixWildcard c schema).schema = schema := by
  unfold fixWildcard
  repeat' split
  all_goals rfl

/-- If the field text is not exactly `*`, or the table is unknown, the
wildcard step creates no alias. -/
theorem fixWildcard_not_aliased (c : Clauses) (schema : Schema)
    (h : c.fields = ['*'] → lookupSchema c.table schema = none) :
    (fixWildcard c schema).aliased = false := by
  unfold fixWildcard
  split
  · rename_i hf
    rw [h hf]
  · rfl

theorem fixAddId_nonaliased (c : Clauses) (addId : Bool) (s : FixState)
    (h : s.aliased = false) :
    (fixAddId c addId s).schema = s.schema ∧ (fixAddId c addId s).aliased = false := by
  unfold fixAddId
  split
  · simp [h]
  · exact ⟨rfl, h⟩

theorem fixFk_nonaliased (c : Clauses) (addId : Bool) (s : FixState)
    (h : s.aliased = false) :
    (fixFk c addId s).schema = s.schema ∧ (fixFk c addId s).aliased = false := by
  unfold fixFk
  split
  · rw [h]
    simp only [Bool.false_eq_true, if_false]
    split
    · exact ⟨rfl, rfl⟩
    · exact ⟨rfl, h⟩
  · exact ⟨rfl, h⟩

theorem fixPrune_nonaliased (c : Clauses) (s : FixState) (h : s.aliased = false) :
    (fixPrune c s).schema = s.schema := by
  unfold fixPrune
  split
  · rw [h]
    simp only [Bool.false_eq_true, if_false]
    split
    · rfl
    · rfl
  · rfl

/-- Whenever the wildcard step creates no alias, the whole fix-up leaves
the caller's schema untouched. -/
theorem fixupFields_schema_nonaliased (c : Clauses) (schema : Schema) (addId : Bool)
    (h : (fixWildcard c schema).aliased = false) :
    (fixupFields c schema addId).schema = schema := by
  unfold fixupFields
  have h2a : (fixCountStar (fixWildcard c schema)).aliased = false :=
    (fixCountStar_aliased _).trans h
  have h2s : (fixCountStar (fixWildcard c schema)).schema = schema :=
    (fixCountStar_schema _).trans (fixWildcard_schema c schema)
  obtain ⟨h3s, h3a⟩ := fixAddId_nonaliased c addId _ h2a
  obtain ⟨h4s, h4a⟩ := fixFk_nonaliased c addId _ h3a
  rw [fixPrune_nonaliased c _ h4a, h4s, h3s, h2s]

/-! ## Concrete data for the claim theorems -/

/-- The schema of the spec's concrete scenarios:
`{Account: [Id, a1, a2, a3, OwnerId]}`. -/
def accountSchema : Schema :=
  [("Account".toList, ["Id", "a1", "a2", "a3", "OwnerId"].map String.toList)]

def c1Input : Str :=
  "SELECT Max(a1) cmax FROM Account WHERE Name='Fred' Group BY firstname order by cmax DESC".toList

/-- Claim C1, as stated, is false: on the literal input the translator
does not return the spec's expected statement (the bare alias `cmax` is
removed by the hallucinated-column pruning, since it is not a schema
column and contains no parenthesis). -/
theorem c1_scenario_counterexample :
    (sql2soql c1Input accountSchema true 4).map (fun r => r.1.1) ≠
      some "SELECT Max(a1) cmax FROM Account WHERE Name='Fred' GROUP BY firstname ORDER BY cmax DESC".toList := by
  decide

/-- Claim C1 (amended): on the literal input the query is detected as
aggregate and no LIMIT is added, but the bare alias `cmax` is pruned as a
hallucinated column, so the exact result is
`SELECT Max(a1) FROM Account WHERE Name='Fred' GROUP BY firstname ORDER BY cmax DESC `
(with a trailing space), together with the table `Account`, and the
schema is left unchanged. -/
theorem c1_scenario_amended :
    sql2soql c1Input accountSchema true 4 =
      some (("SELECT Max(a1) FROM Account WHERE Name='Fred' GROUP BY firstname ORDER BY cmax DESC ".toList,
             "Account".toList), accountSchema) := by
  decide

/-- Claim C9: if no `SELECT` keyword boundary is found, or no lazy
`(.*?)from\s+` boundary is found after it, the translator fails with no
partial result (the unhandled `AttributeError`, modelled as `none`). -/
theorem c9_malformed_fatal (sql : Str) (schema : Schema) (addId : Bool) (cap : Int)
    (h : findKwWsEnd ["select".toList] sql = none ∨
         ∃ r, findKwWsEnd ["select".toList] sql = some r ∧ lazyFromSearch r = none) :
    sql2soql sql schema addId cap = none := by
  rcases h with h | ⟨r, h1, h2⟩
  · simp only [sql2soql, parseClauses, h]
  · simp only [sql2soql, parseClauses, h1, h2]

theorem c9_malformed_witness :
    findKwWsEnd ["select".toList] "update x set y=3".toList = none ∧
    sql2soql "update x set y=3".toList [] true 4 = none :=
  ⟨by decide, c9_malformed_fatal _ _ _ _ (Or.inl (by decide))⟩

/-- Claim C2, as stated, is false: `SELECT * FROM T` on the schema
`{T: [a1]}` with the forced-key flag appends `Id` to the caller's column
list through the alias created by wildcard expansion. -/
theorem c2_schema_mutation_counterexample :
    (sql2soql "SELECT * FROM T".toList [("T".toList, ["a1".toList])] true 0).map
        (fun r => r.2) ≠
      some [("T".toList, ["a1".toList])] := by
  decide

/-- Claim C2 (amended): the translator leaves the caller's schema mapping
unchanged *except* in one case: a wildcard field list on a known table,
with the forced-key flag set and `Id` absent from that table's column
list, appends `Id` to the caller's column list (the working list aliases
the schema entry).  The returned schema is characterized exactly. -/
theorem c2_schema_mutation_amended (sql : Str) (schema : Schema) (addId : Bool) (cap : Int)
    (c : Clauses) (r : (Str × Str) × Schema)
    (hp : parseClauses sql = some c) (hr : sql2soql sql schema addId cap = some r) :
    r.2 = match lookupSchema c.table schema with
          | some cols =>
            if c.fields = ['*'] ∧ addId = true ∧ "Id".toList ∉ cols then
              updateSchema c.table (cols ++ ["Id".toList]) schema
            else schema
          | none => schema := by
  have hr2 : r.2 = (fixupFields c schema addId).schema := by
    simp only [sql2soql, hp, Option.some.injEq] at hr
    rw [← hr]
  rw [hr2]
  cases hlk : lookupSchema c.table schema with
  | none =>
    have : (fixWildcard c schema).aliased = false :=
      fixWildcard_not_aliased c schema (fun _ => hlk)
    exact fixupFields_schema_nonaliased c schema addId this
  | some cols =>
    by_cases hf : c.fields = ['*']
    · have hagg : c.aggregate = false := by
        rw [parseClauses_aggregate hp, hf]
        rfl
      rw [fixupFields_wildcard c schema addId cols hf hlk hagg]
      by_cases hid : ('I' :: 'd' :: []) ∈ cols
      · have hcon : cols.contains "Id".toList = true := by simpa using hid
        rw [if_pos (by rw [hcon]; rfl)]
        exact (if_neg (by rintro ⟨-, -, hn⟩; exact hn hid)).symm
      · have hcon : cols.contains "Id".toList = false := by
          cases hcc : cols.contains "Id".toList
          · rfl
          · exact absurd (by simpa using hcc) hid
        cases haddId : addId
        · rw [if_pos (by rw [hcon]; rfl)]
          exact (if_neg (by rintro ⟨-, hn, -⟩; exact Bool.false_ne_true hn)).symm
        · rw [if_neg (by rw [hcon]; simp)]
          exact (if_pos ⟨hf, rfl, hid⟩).symm
    · have : (fixWildcard c schema).aliased = false :=
        fixWildcard_not_aliased c schema (fun hh => absurd hh hf)
      rw [fixupFields_schema_nonaliased c schema addId this]
      split
      · exact (if_neg (by rintro ⟨hff, -, -⟩; exact hf hff)).symm
      · rfl

theorem c2_schema_mutation_witness :
    parseClauses "SELECT a1 FROM Account".toList =
        some { fields := "a1".toList, listFields := ["a1".toList], aggregate := false,
               table := "Account".toList, whereC := none, groupby := none,
               orderby := none, limit := none } ∧
    (sql2soql "SELECT a1 FROM Account".toList accountSchema true 0).map (fun r => r.2) =
      some accountSchema := by
  constructor
  · decide
  · rw [(by decide :
        sql2soql "SELECT a1 FROM Account".toList accountSchema true 0 =
          some (("SELECT a1, Id, OwnerId FROM Account ".toList, "Account".toList),
                (fixupFields { fields := "a1".toList, listFields := ["a1".toList],
                               aggregate := false, table := "Account".toList, whereC := none,
                               groupby := none, orderby := none, limit := none }
                  accountSchema true).schema))]
    have h := c2_schema_mutation_amended "SELECT a1 FROM Account".toList accountSchema true 0
      { fields := "a1".toList, listFields := ["a1".toList], aggregate := false,
        table := "Account".toList, whereC := none, groupby := none,
        orderby := none, limit := none }
      (("SELECT a1, Id, OwnerId FROM Account ".toList, "Account".toList),
        (fixupFields { fields := "a1".toList, listFields := ["a1".toList],
                       aggregate := false, table := "Account".toList, whereC := none,
                       groupby := none, orderby := none, limit := none }
          accountSchema true).schema)
      (by decide) (by decide)
    simp only [Option.map, h]
    decide

/-- Claim C5, as stated, is false: with the forced-key flag (the default)
and a schema lacking `Id`, the wildcard output field list is the schema
columns *plus* `Id`. -/
theorem c5_wildcard_counterexample :
    finalFields "SELECT * FROM T".toList [("T".toList, ["a1".toList])] true ≠
      ["a1".toList] := by
  decide

/-- Claim C5 (amended): for a wildcard query on a known table, the output
field list is exactly the schema column sequence when the schema already
contains `Id` or the forced-key flag is off; otherwise it is the schema
sequence with `Id` appended. -/
theorem c5_wildcard_amended (sql : Str) (schema : Schema) (addId : Bool)
    (c : Clauses) (cols : List Str)
    (hp : parseClauses sql = some c) (hf : c.fields = ['*'])
    (hlk : lookupSchema c.table schema = some cols) :
    finalFields sql schema addId =
      if cols.contains "Id".toList || !addId then cols else cols ++ ["Id".toList] := by
  have hagg : c.aggregate = false := by
    rw [parseClauses_aggregate hp, hf]
    rfl
  unfold finalFields
  rw [hp]
  show (fixupFields c schema addId).listFields = _
  rw [fixupFields_wildcard c schema addId cols hf hlk hagg]
  split
  · rfl
  · rfl

theorem c5_wildcard_witness :
    finalFields "SELECT * FROM Account".toList accountSchema true =
      ["Id", "a1", "a2", "a3", "OwnerId"].map String.toList :=
  (c5_wildcard_amended "SELECT * FROM Account".toList accountSchema true
      { fields := ['*'], listFields := [['*']], aggregate := false,
        table := "Account".toList, whereC := none, groupby := none,
        orderby := none, limit := none }
      (["Id", "a1", "a2", "a3", "OwnerId"].map String.toList)
      (by decide) (by decide) (by decide)).trans (by decide)

/-- Claim C8, as stated, is false: `SELECT *, name FROM t` on an unknown
table keeps the literal `*` in the post-fixup field list (and in the
emitted field text). -/
theorem c8_star_counterexample :
    ['*'] ∈ finalFields "SELECT *, name FROM t".toList [] true := by
  decide

/-- Claim C8 (amended): when the field-list text is exactly `*` and the
table has a known schema that does not itself contain a `*` entry, the
post-fixup field list contains no `*` (it is the schema sequence,
possibly with `Id` appended).  For other shapes — `*` among other
entries, or an unknown table — the literal `*` can survive. -/
theorem c8_star_amended (sql : Str) (schema : Schema) (addId : Bool)
    (c : Clauses) (cols : List Str)
    (hp : parseClauses sql = some c) (hf : c.fields = ['*'])
    (hlk : lookupSchema c.table schema = some cols) (hstar : ['*'] ∉ cols) :
    ['*'] ∉ finalFields sql schema addId := by
  have hagg : c.aggregate = false := by
    rw [parseClauses_aggregate hp, hf]
    rfl
  unfold finalFields
  rw [hp]
  show ['*'] ∉ (fixupFields c schema addId).listFields
  rw [fixupFields_wildcard c schema addId cols hf hlk hagg]
  split
  · exact hstar
  · intro hmem
    rcases List.mem_append.mp hmem with h | h
    · exact hstar h
    · simp only [List.mem_singleton] at h
      exact absurd h (by decide)

theorem c8_star_witness :
    ['*'] ∉ finalFields "SELECT * FROM Account".toList accountSchema true :=
  c8_star_amended "SELECT * FROM Account".toList accountSchema true
    { fields := ['*'], listFields := [['*']], aggregate := false,
      table := "Account".toList, whereC := none, groupby := none,
      orderby := none, limit := none }
    (["Id", "a1", "a2", "a3", "OwnerId"].map String.toList)
    (by decide) (by decide) (by decide) (by decide)

/-! ## Foreign-key injection and pruning lemmas -/

theorem fixWildcard_not_star (c : Clauses) (schema : Schema) (h : ¬c.fields = ['*']) :
    fixWildcard c schema = ⟨c.fields, c.listFields, schema, false⟩ := by
  unfold fixWildcard
  rw [if_neg h]

theorem fixCountStar_shape (s : FixState) :
    ∃ f2, fixCountStar s = ⟨f2, s.listFields, s.schema, s.aliased⟩ := by
  unfold fixCountStar
  split
  · exact ⟨_, rfl⟩
  · exact ⟨s.fields, rfl⟩

/-- The foreign-key loop only ever appends, and appends only elements of
the iterated source list. -/
theorem fkLoop_append (src : List Str) : ∀ (flds : Str) (lst : List Str),
    ∃ ex, (fkLoop flds lst src).2 = lst ++ ex ∧ ∀ e ∈ ex, e ∈ src := by
  induction src with
  | nil =>
    intro flds lst
    exact ⟨[], by simp [fkLoop], by simp⟩
  | cons f src ih =>
    intro flds lst
    unfold fkLoop
    split
    · obtain ⟨ex, h1, h2⟩ := ih (flds ++ (',' :: ' ' :: []) ++ f) (lst ++ [f])
      refine ⟨f :: ex, ?_, ?_⟩
      · rw [h1, List.append_assoc]
        rfl
      · intro e he
        rcases List.mem_cons.mp he with he | he
        · exact he ▸ List.mem_cons_self f src
        · exact List.mem_cons_of_mem f (h2 e he)
    · obtain ⟨ex, h1, h2⟩ := ih flds lst
      exact ⟨ex, h1, fun e he => List.mem_cons_of_mem f (h2 e he)⟩

/-- Whatever was in the list stays in it through the foreign-key loop. -/
theorem fkLoop_mono (src : List Str) (flds : Str) (lst : List Str) {f : Str}
    (h : f ∈ lst) : f ∈ (fkLoop flds lst src).2 := by
  obtain ⟨ex, h1, -⟩ := fkLoop_append src flds lst
  rw [h1]
  exact List.mem_append_left ex h

/-- Every source element ending in `Id`/`Id__c` is present after the
foreign-key loop. -/
theorem fkLoop_mem (src : List Str) : ∀ (flds : Str) (lst : List Str) (f : Str),
    f ∈ src → endsIdLike f = true → f ∈ (fkLoop flds lst src).2 := by
  induction src with
  | nil => intro _ _ _ h; exact absurd h (List.not_mem_nil _)
  | cons g src ih =>
    intro flds lst f hmem hid
    rcases List.mem_cons.mp hmem with hfg | hmem
    · subst hfg
      unfold fkLoop
      split
      · exact fkLoop_mono src _ _ (List.mem_append_right lst (List.mem_singleton.mpr rfl))
      · rename_i hcond
        have hin : f ∈ lst := by
          rw [hid] at hcond
          simpa using hcond
        exact fkLoop_mono src _ _ hin
    · unfold fkLoop
      split
      · exact ih _ _ f hmem hid
      · exact ih _ _ f hmem hid

theorem removeFirst_mem {f x : Str} (hne : f ≠ x) : ∀ {lst : List Str},
    f ∈ lst → f ∈ removeFirst x lst := by
  intro lst
  induction lst with
  | nil => intro h; exact absurd h (List.not_mem_nil _)
  | cons y r ih =>
    intro h
    unfold removeFirst
    split
    · rename_i hyx
      rcases List.mem_cons.mp h with hfy | hfr
      · exact absurd (hfy.trans hyx) hne
      · exact hfr
    · rcases List.mem_cons.mp h with hfy | hfr
      · exact hfy ▸ List.mem_cons_self y _
      · exact List.mem_cons_of_mem y (ih hfr)

/-- Pruning never removes a schema column. -/
theorem pruneLoop_mem (cols : List Str) {f : Str} (hf : f ∈ cols) :
    ∀ (fuel : Nat) (lst : List Str) (idx : Nat), f ∈ lst → f ∈ pruneLoop cols lst idx fuel := by
  intro fuel
  induction fuel with
  | zero => intro lst idx h; exact h
  | succ n ih =>
    intro lst idx h
    unfold pruneLoop
    cases hg : lst[idx]? with
    | none => exact h
    | some c =>
      show f ∈ if (!(c.contains '(') && !(cols.contains c)) = true then
          pruneLoop cols (removeFirst c lst) (idx + 1) n
        else pruneLoop cols lst (idx + 1) n
      by_cases hcond : (!(c.contains '(') && !(cols.contains c)) = true
      · rw [if_pos hcond]
        have hc : c ∉ cols := by
          simp only [Bool.and_eq_true, Bool.not_eq_true'] at hcond
          intro hmem
          rw [(by simpa using hmem : cols.contains c = true)] at hcond
          exact Bool.noConfusion hcond.2
        exact ih _ _ (removeFirst_mem (fun he => hc (by rw [← he]; exact hf)) h)
      · rw [if_neg hcond]
        exact ih _ _ h

/-- Shape of the fix-up when the field text is not exactly `*` and the
table is known: the tokenized list, possibly with `Id` appended, then the
foreign-key loop (when non-aggregate with the forced-key flag), then the
pruning loop. -/
theorem fixupFields_nonwild_known (c : Clauses) (schema : Schema) (addId : Bool)
    (cols : List Str) (hfne : ¬c.fields = ['*'])
    (hlk : lookupSchema c.table schema = some cols) :
    ∃ (flds3 : Str) (mid : List Str),
      (mid = c.listFields ∨
        ("Id".toList ∉ c.listFields ∧ c.aggregate = false ∧ addId = true ∧
          mid = c.listFields ++ ["Id".toList])) ∧
      ((c.aggregate = false ∧ addId = true ∧
          (fixupFields c schema addId).listFields =
            pruneLoop cols (fkLoop flds3 mid cols).2 0 (fkLoop flds3 mid cols).2.length) ∨
       (¬(c.aggregate = false ∧ addId = true) ∧
          (fixupFields c schema addId).listFields = pruneLoop cols mid 0 mid.length)) := by
  unfold fixupFields
  rw [fixWildcard_not_star c schema hfne]
  obtain ⟨f2, hs2⟩ := fixCountStar_shape ⟨c.fields, c.listFields, schema, false⟩
  rw [hs2]
  simp only at hs2 ⊢
  by_cases hb3 : (!(c.listFields.contains "Id".toList) && !c.aggregate && addId) = true
  · -- `Id` gets appended
    have h3 : fixAddId c addId ⟨f2, c.listFields, schema, false⟩ =
        ⟨f2 ++ ", Id".toList, c.listFields ++ ["Id".toList], schema, false⟩ := by
      unfold fixAddId
      rw [if_pos hb3]
      rfl
    rw [h3]
    have hb3' : c.listFields.contains "Id".toList = false ∧
        c.aggregate = false ∧ addId = true := by
      simp only [Bool.and_eq_true, Bool.not_eq_true'] at hb3
      exact ⟨hb3.1.1, hb3.1.2, hb3.2⟩
    have hidnot : "Id".toList ∉ c.listFields := by
      have := hb3'.1
      intro hmem
      rw [(by simpa using hmem : c.listFields.contains "Id".toList = true)] at this
      exact Bool.noConfusion this
    refine ⟨f2 ++ ", Id".toList, c.listFields ++ ["Id".toList],
      Or.inr ⟨hidnot, hb3'.2.1, hb3'.2.2, rfl⟩, ?_⟩
    have hb4 : (!c.aggregate && addId &&
        (lookupSchema c.table (⟨f2 ++ ", Id".toList, c.listFields ++ ["Id".toList],
          schema, false⟩ : FixState).schema).isSome) = true := by
      simp only [hb3'.2.1, hb3'.2.2]
      simp [hlk]
    have h4 : fixFk c addId ⟨f2 ++ ", Id".toList, c.listFields ++ ["Id".toList], schema, false⟩ =
        ⟨(fkLoop (f2 ++ ", Id".toList) (c.listFields ++ ["Id".toList]) cols).1,
         (fkLoop (f2 ++ ", Id".toList) (c.listFields ++ ["Id".toList]) cols).2,
         schema, false⟩ := by
      unfold fixFk
      rw [if_pos hb4]
      simp only [Bool.false_eq_true, if_false, hlk]
    rw [h4]
    refine Or.inl ⟨hb3'.2.1, hb3'.2.2, ?_⟩
    unfold fixPrune
    rw [if_pos (by simp [hlk])]
    simp only [Bool.false_eq_true, if_false, hlk]
  · -- no `Id` append
    have h3 : fixAddId c addId ⟨f2, c.listFields, schema, false⟩ =
        ⟨f2, c.listFields, schema, false⟩ := by
      unfold fixAddId
      rw [if_neg hb3]
    rw [h3]
    refine ⟨f2, c.listFields, Or.inl rfl, ?_⟩
    by_cases hb4 : (c.aggregate = false ∧ addId = true)
    · have hb4' : (!c.aggregate && addId &&
          (lookupSchema c.table (⟨f2, c.listFields, schema, false⟩ : FixState).schema).isSome) = true := by
        simp only [hb4.1, hb4.2]
        simp [hlk]
      have h4 : fixFk c addId ⟨f2, c.listFields, schema, false⟩ =
          ⟨(fkLoop f2 c.listFields cols).1, (fkLoop f2 c.listFields cols).2,
           schema, false⟩ := by
        unfold fixFk
        rw [if_pos hb4']
        simp only [Bool.false_eq_true, if_false, hlk]
      rw [h4]
      refine Or.inl ⟨hb4.1, hb4.2, ?_⟩
      unfold fixPrune
      rw [if_pos (by simp [hlk])]
      simp only [Bool.false_eq_true, if_false, hlk]
    · have hb4' : (!c.aggregate && addId &&
          (lookupSchema c.table (⟨f2, c.listFields, schema, false⟩ : FixState).schema).isSome) = false := by
        rcases Decidable.not_and_iff_or_not.mp hb4 with hh | hh
        · have : c.aggregate = true := by
            cases ha : c.aggregate
            · exact absurd ha hh
            · rfl
          simp [this]
        · have : addId = false := by
            cases ha : addId
            · rfl
            · exact absurd ha hh
          simp [this]
      have h4 : fixFk c addId ⟨f2, c.listFields, schema, false⟩ =
          ⟨f2, c.listFields, schema, false⟩ := by
        unfold fixFk
        rw [if_neg (by rw [hb4']; exact Bool.false_ne_true)]
      rw [h4]
      refine Or.inr ⟨hb4, ?_⟩
      unfold fixPrune
      rw [if_pos (by simp [hlk])]
      simp only [Bool.false_eq_true, if_false, hlk]

/-- Claim C6, as stated, is false: foreign-key injection (line 143) is
also gated on the caller's forced-key flag, so with `add_id` off the
schema column `OwnerId` is not appended. -/
theorem c6_fk_injection_counterexample :
    "OwnerId".toList ∉ finalFields "SELECT a1 FROM Account".toList accountSchema false := by
  decide

/-- Claim C6 (amended): for every non-aggregate query on a table with a
known schema *and with the forced-key flag set*, every schema column
whose name ends in `Id` or `Id__c` is present in the post-fixup field
list (injected if missing, and never pruned since it is a schema
column). -/
theorem c6_fk_injection_amended (sql : Str) (schema : Schema)
    (c : Clauses) (cols : List Str) (f : Str)
    (hp : parseClauses sql = some c) (hagg : c.aggregate = false)
    (hlk : lookupSchema c.table schema = some cols)
    (hf : f ∈ cols) (hid : endsIdLike f = true) :
    f ∈ finalFields sql schema true := by
  unfold finalFields
  rw [hp]
  show f ∈ (fixupFields c schema true).listFields
  by_cases hfw : c.fields = ['*']
  · rw [fixupFields_wildcard c schema true cols hfw hlk hagg]
    split
    · exact hf
    · exact List.mem_append_left _ hf
  · obtain ⟨flds3, mid, hmid, hshape⟩ := fixupFields_nonwild_known c schema true cols hfw hlk
    rcases hshape with ⟨-, -, heq⟩ | ⟨hnot, -⟩
    · rw [heq]
      exact pruneLoop_mem cols hf _ _ _ (fkLoop_mem cols flds3 mid f hf hid)
    · exact absurd ⟨hagg, rfl⟩ hnot

theorem c6_fk_injection_witness :
    "OwnerId".toList ∈ finalFields "SELECT a1 FROM Account".toList accountSchema true :=
  c6_fk_injection_amended "SELECT a1 FROM Account".toList accountSchema
    ⟨"a1".toList, ["a1".toList], false, "Account".toList, none, none, none, none⟩
    (["Id", "a1", "a2", "a3", "OwnerId"].map String.toList) "OwnerId".toList
    (by decide) (by decide) (by decide) (by decide) (by decide)

/-! ## Limit resolution and output shape -/

theorem assemble_limit (fields table : Str) (w g o : Option Str) (d : Str) :
    assemble fields table w g o (some d) =
      assemble fields table w g o none ++ ("LIMIT ".toList ++ d) := by
  unfold assemble
  simp [List.append_assoc]

/-- Appending a clause that is either empty or space-terminated keeps the
space-terminated shape. -/
theorem endsSpace_step (a : Str) (m : Option Str) (kw : Str)
    (ha : ∃ p, a = p ++ [' ']) :
    ∃ p, (a ++ match m with | some x => kw ++ x ++ [' '] | none => []) = p ++ [' '] := by
  cases m with
  | some x => exact ⟨a ++ (kw ++ x), by simp⟩
  | none => simpa using ha

/-- Without a LIMIT clause the assembled statement ends in a space. -/
theorem assemble_none_ends (fields table : Str) (w g o : Option Str) :
    ∃ pre, assemble fields table w g o none = pre ++ [' '] := by
  have h0 : ∃ p, ("SELECT ".toList ++ fields ++ [' '] ++ "FROM ".toList ++ table ++ [' '] : Str) =
      p ++ [' '] :=
    ⟨"SELECT ".toList ++ fields ++ [' '] ++ "FROM ".toList ++ table, rfl⟩
  have h1 := endsSpace_step _ w "WHERE ".toList h0
  have h2 := endsSpace_step _ g "GROUP BY ".toList h1
  have h3 := endsSpace_step _ o "ORDER BY ".toList h2
  obtain ⟨p, hp⟩ := h3
  exact ⟨p, by unfold assemble; rw [List.append_nil]; exact hp⟩

/-- Claim C4: the emitted LIMIT is decided exactly by the resolution
rule.  An explicit `LIMIT n` is kept verbatim and makes the whole result
independent of the default cap; otherwise a non-aggregate query with a
positive cap gets `LIMIT cap`; otherwise no LIMIT clause is emitted and
the statement is exactly the LIMIT-less assembly. -/
theorem c4_limit_resolution (sql : Str) (schema : Schema) (addId : Bool) (cap : Int)
    (c : Clauses) (r : (Str × Str) × Schema)
    (hp : parseClauses sql = some c) (hr : sql2soql sql schema addId cap = some r) :
    (∀ d, c.limit = some d →
        r.1.1 = noLimitStmt c schema addId ++ ("LIMIT ".toList ++ d) ∧
        ∀ cap2 : Int, sql2soql sql schema addId cap2 = some r) ∧
    (c.limit = none → c.aggregate = false → 0 < cap →
        r.1.1 = noLimitStmt c schema addId ++ ("LIMIT ".toList ++ natDigits cap.toNat)) ∧
    (c.limit = none → (c.aggregate = true ∨ cap ≤ 0) →
        r.1.1 = noLimitStmt c schema addId) := by
  have hr' : r = ((assemble (fixupFields c schema addId).fields c.table
      (c.whereC.map fixWhere) c.groupby c.orderby (resolveLimit c.limit c.aggregate cap),
      c.table), (fixupFields c schema addId).schema) := by
    simp only [sql2soql, hp, Option.some.injEq] at hr
    exact hr.symm
  refine ⟨?_, ?_, ?_⟩
  · intro d hd
    constructor
    · rw [hr']
      show assemble _ _ _ _ _ (resolveLimit c.limit c.aggregate cap) = _
      rw [hd]
      exact assemble_limit _ _ _ _ _ d
    · intro cap2
      simp only [sql2soql, hp, Option.some.injEq]
      rw [hr', hd]
      rfl
  · intro hd hagg hcap
    rw [hr']
    show assemble _ _ _ _ _ (resolveLimit c.limit c.aggregate cap) = _
    rw [hd]
    have : resolveLimit none c.aggregate cap = some (natDigits cap.toNat) := by
      unfold resolveLimit
      rw [hagg]
      simp [hcap]
    rw [this]
    exact assemble_limit _ _ _ _ _ _
  · intro hd hcase
    rw [hr']
    show assemble _ _ _ _ _ (resolveLimit c.limit c.aggregate cap) = _
    rw [hd]
    have : resolveLimit none c.aggregate cap = none := by
      unfold resolveLimit
      rcases hcase with hagg | hcap
      · rw [hagg]
        rfl
      · have : ¬(cap > 0) := by omega
        simp [this]
    rw [this]
    rfl

theorem c4_limit_witness :
    "SELECT a FROM t LIMIT 007".toList =
      noLimitStmt ⟨"a".toList, ["a".toList], false, ['t'], none, none, none,
          some "007".toList⟩ [] false ++ ("LIMIT ".toList ++ "007".toList) ∧
    sql2soql "select a from t limit 007".toList [] false 9 =
      sql2soql "select a from t limit 007".toList [] false 0 := by
  have h := c4_limit_resolution "select a from t limit 007".toList [] false 9
    ⟨"a".toList, ["a".toList], false, ['t'], none, none, none, some "007".toList⟩
    (("SELECT a FROM t LIMIT 007".toList, ['t']), [])
    (by decide) (by decide)
  obtain ⟨h1, -, -⟩ := h
  obtain ⟨ha, hb⟩ := h1 "007".toList rfl
  exact ⟨ha, (hb 9).trans (hb 0).symm⟩

theorem findLimit_digits : ∀ {s d : Str}, findLimit s = some d →
    d ≠ [] ∧ ∀ ch ∈ d, isDigitChar ch = true := by
  intro s
  induction s with
  | nil => intro d h; exact absurd h (by simp [findLimit])
  | cons c r ih =>
    intro d h
    unfold findLimit at h
    split at h
    · rename_i rest heq
      by_cases hd : rest.takeWhile isDigitChar = []
      · rw [if_pos hd] at h
        exact ih h
      · rw [if_neg hd] at h
        injection h with h
        subst h
        exact ⟨hd, fun ch hch => List.mem_takeWhile_imp hch⟩
    · exact ih h

/-- The extracted explicit limit is always a `findLimit` result. -/
theorem parseClauses_limit {sql : Str} {c : Clauses} (h : parseClauses sql = some c) :
    ∃ s, c.limit = findLimit s := by
  unfold parseClauses at h
  repeat' split at h
  any_goals exact absurd h (fun hh => Option.noConfusion hh)
  simp only [Option.some.injEq] at h
  subst h
  exact ⟨_, rfl⟩

theorem digitChar_isDigit : ∀ n : Nat, isDigitChar (digitChar n) = true
  | 0 => rfl | 1 => rfl | 2 => rfl | 3 => rfl | 4 => rfl
  | 5 => rfl | 6 => rfl | 7 => rfl | 8 => rfl | _ + 9 => rfl

theorem natDigitsGo_digits : ∀ (fuel n : Nat) (acc : Str),
    (∀ ch ∈ acc, isDigitChar ch = true) →
    ∀ ch ∈ natDigitsGo n fuel acc, isDigitChar ch = true := by
  intro fuel
  induction fuel with
  | zero => intro n acc hacc; exact hacc
  | succ m ih =>
    intro n acc hacc ch hch
    unfold natDigitsGo at hch
    split at hch
    · rcases List.mem_cons.mp hch with hc | hc
      · exact hc ▸ digitChar_isDigit n
      · exact hacc ch hc
    · refine ih _ _ ?_ ch hch
      intro x hx
      rcases List.mem_cons.mp hx with hc | hc
      · exact hc ▸ digitChar_isDigit _
      · exact hacc x hc

theorem natDigitsGo_ne : ∀ (fuel n : Nat) (acc : Str), acc ≠ [] ∨ 0 < fuel →
    natDigitsGo n fuel acc ≠ [] := by
  intro fuel
  induction fuel with
  | zero =>
    intro n acc h
    rcases h with h | h
    · exact h
    · exact absurd h (by omega)
  | succ m ih =>
    intro n acc h
    unfold natDigitsGo
    split
    · exact List.cons_ne_nil _ _
    · exact ih _ _ (Or.inl (List.cons_ne_nil _ _))

theorem natDigits_spec (n : Nat) :
    natDigits n ≠ [] ∧ ∀ ch ∈ natDigits n, isDigitChar ch = true :=
  ⟨natDigitsGo_ne _ _ _ (Or.inr (by omega)),
   natDigitsGo_digits _ _ _ (by intro ch hch; exact absurd hch (List.not_mem_nil ch))⟩

/-- Claim C10, as stated, is false: with an empty WHERE clause body the
statement ends in *two* spaces, not a single one. -/
theorem c10_trailing_counterexample :
    (sql2soql "select a from t where ".toList [] false 0).map (fun r => r.1.1) =
      some ("SELECT a FROM t WHERE".toList ++ [' ', ' ']) := by
  decide

/-- Claim C10 (amended): every successful translation without a LIMIT
clause ends in at least one trailing space (exactly one unless the final
clause body is itself empty or space-terminated), and a translation with
a LIMIT clause ends in the limit digits — a nonempty all-digit string —
so has no trailing space. -/
theorem c10_trailing_amended (sql : Str) (schema : Schema) (addId : Bool) (cap : Int)
    (c : Clauses) (r : (Str × Str) × Schema)
    (hp : parseClauses sql = some c) (hr : sql2soql sql schema addId cap = some r) :
    (resolveLimit c.limit c.aggregate cap = none → ∃ pre, r.1.1 = pre ++ [' ']) ∧
    (∀ d, resolveLimit c.limit c.aggregate cap = some d →
        (∃ pre, r.1.1 = pre ++ ("LIMIT ".toList ++ d)) ∧ d ≠ [] ∧
        ∀ ch ∈ d, isDigitChar ch = true) := by
  have hr' : r = ((assemble (fixupFields c schema addId).fields c.table
      (c.whereC.map fixWhere) c.groupby c.orderby (resolveLimit c.limit c.aggregate cap),
      c.table), (fixupFields c schema addId).schema) := by
    simp only [sql2soql, hp, Option.some.injEq] at hr
    exact hr.symm
  constructor
  · intro hnone
    rw [hr']
    show ∃ pre, assemble _ _ _ _ _ (resolveLimit c.limit c.aggregate cap) = pre ++ [' ']
    rw [hnone]
    exact assemble_none_ends _ _ _ _ _
  · intro d hd
    refine ⟨?_, ?_⟩
    · rw [hr']
      show ∃ pre, assemble _ _ _ _ _ (resolveLimit c.limit c.aggregate cap) = _
      rw [hd]
      exact ⟨_, assemble_limit _ _ _ _ _ d⟩
    · unfold resolveLimit at hd
      split at hd
      · rename_i d0 heq
        injection hd with hd
        subst hd
        obtain ⟨s0, hs0⟩ := parseClauses_limit hp
        rw [heq] at hs0
        exact findLimit_digits hs0.symm
      · split at hd
        · injection hd with hd
          subst hd
          exact natDigits_spec _
        · exact absurd hd (by simp)

theorem c10_trailing_witness :
    (∃ pre : Str,
      "SELECT a FROM t WHERE x=1 ".toList = pre ++ [' ']) ∧
    (∃ pre : Str,
      "SELECT a FROM t LIMIT 12".toList = pre ++ ("LIMIT ".toList ++ "12".toList)) := by
  have h1 := c10_trailing_amended "select a from t where x=1".toList [] false 0
    ⟨"a".toList, ["a".toList], false, ['t'], some "x=1".toList, none, none, none⟩
    (("SELECT a FROM t WHERE x=1 ".toList, ['t']), [])
    (by decide) (by decide)
  have h2 := c10_trailing_amended "select a from t limit 12".toList [] false 0
    ⟨"a".toList, ["a".toList], false, ['t'], none, none, none, some "12".toList⟩
    (("SELECT a FROM t LIMIT 12".toList, ['t']), [])
    (by decide) (by decide)
  exact ⟨h1.1 rfl, (h2.2 "12".toList rfl).1⟩

/-! ## The remove-while-iterating pruning loop -/

/-- A hallucinated entry: no parenthesis and not a schema column. -/
def badEntry (cols : List Str) (e : Str) : Bool :=
  !(e.contains '(') && !(cols.contains e)

/-- No two adjacent hallucinated entries. -/
def noAdjBad (cols : List Str) : List Str → Bool
  | x :: y :: r => (!(badEntry cols x && badEntry cols y)) && noAdjBad cols (y :: r)
  | _ => true

theorem noAdjBad_tail (cols : List Str) {x : Str} {l : List Str}
    (h : noAdjBad cols (x :: l) = true) : noAdjBad cols l = true := by
  cases l with
  | nil => rfl
  | cons y r =>
    unfold noAdjBad at h
    rw [Bool.and_eq_true] at h
    exact h.2

theorem noAdjBad_allGood (cols : List Str) : ∀ {ex : List Str},
    (∀ e ∈ ex, badEntry cols e = false) → noAdjBad cols ex = true := by
  intro ex
  induction ex with
  | nil => intro; rfl
  | cons x r ih =>
    intro h
    cases r with
    | nil => rfl
    | cons y r' =>
      unfold noAdjBad
      rw [h x (List.mem_cons_self x _)]
      simp only [Bool.false_and, Bool.not_false, Bool.true_and]
      exact ih (fun e he => h e (List.mem_cons_of_mem x he))

theorem noAdjBad_append_good (cols : List Str) : ∀ (l ex : List Str),
    noAdjBad cols l = true → (∀ e ∈ ex, badEntry cols e = false) →
    noAdjBad cols (l ++ ex) = true := by
  intro l
  induction l with
  | nil =>
    intro ex _ hex
    exact noAdjBad_allGood cols hex
  | cons x l ih =>
    intro ex hadj hex
    cases l with
    | nil =>
      cases ex with
      | nil => rfl
      | cons y ex' =>
        show noAdjBad cols (x :: y :: ex') = true
        unfold noAdjBad
        rw [hex y (List.mem_cons_self y _)]
        simp only [Bool.and_false, Bool.not_false, Bool.true_and]
        exact noAdjBad_allGood cols hex
    | cons z l' =>
      show noAdjBad cols (x :: z :: (l' ++ ex)) = true
      unfold noAdjBad at hadj ⊢
      rw [Bool.and_eq_true] at hadj
      rw [hadj.1]
      simp only [Bool.true_and]
      exact ih ex hadj.2 hex

theorem fkLoop_nodup (src : List Str) : ∀ (flds : Str) (lst : List Str),
    lst.Nodup → (fkLoop flds lst src).2.Nodup := by
  induction src with
  | nil => intro _ _ h; exact h
  | cons f src ih =>
    intro flds lst h
    unfold fkLoop
    split
    · rename_i hcond
      refine ih _ _ (List.nodup_append.mpr ⟨h, List.nodup_singleton f, ?_⟩)
      rw [List.disjoint_singleton]
      intro hmem
      rw [Bool.and_eq_true] at hcond
      rw [(by simpa using hmem : lst.contains f = true)] at hcond
      exact Bool.noConfusion hcond.2
    · exact ih _ _ h

/-- When the index has run past the end, the loop does nothing. -/
theorem pruneLoop_out (cols lst : List Str) (idx fuel : Nat) (h : lst.length ≤ idx) :
    pruneLoop cols lst idx fuel = lst := by
  cases fuel with
  | zero => rfl
  | succ n =>
    unfold pruneLoop
    rw [List.getElem?_eq_none h]

theorem removeFirst_append_self (c : Str) (rest : List Str) : ∀ (done : List Str),
    c ∉ done → removeFirst c (done ++ c :: rest) = done ++ rest := by
  intro done
  induction done with
  | nil =>
    intro
    show removeFirst c (c :: rest) = rest
    unfold removeFirst
    rw [if_pos rfl]
  | cons x d ih =>
    intro h
    show removeFirst c (x :: (d ++ c :: rest)) = x :: (d ++ rest)
    unfold removeFirst
    rw [if_neg (fun hx => h (by rw [← hx]; exact List.mem_cons_self x d))]
    rw [ih (fun hm => h (List.mem_cons_of_mem x hm))]

/-- One unfolding of the pruning loop at a live index. -/
theorem pruneLoop_cons_eq (cols lst : List Str) (idx n : Nat) (c : Str)
    (hg : lst[idx]? = some c) :
    pruneLoop cols lst idx (n + 1) =
      if badEntry cols c = true then pruneLoop cols (removeFirst c lst) (idx + 1) n
      else pruneLoop cols lst (idx + 1) n := by
  conv_lhs => unfold pruneLoop
  rw [hg]
  rfl

/-- Invariant proof for CPython's `for c in lst: … lst.remove(c)` loop:
`done` is the already-visited prefix (all clean), the iterator stands at
`done.length`, and `rest` has no two adjacent hallucinated entries.
Every entry of the final list is clean.  Removal skips the element after
the removed one, which is why adjacency matters: that skipped element is
clean by the adjacency hypothesis and joins `done` unexamined. -/
theorem pruneLoop_aux (cols : List Str) : ∀ (fuel : Nat) (done rest : List Str),
    (done ++ rest).Nodup →
    (∀ e ∈ done, badEntry cols e = false) →
    noAdjBad cols rest = true →
    rest.length ≤ fuel →
    ∀ e ∈ pruneLoop cols (done ++ rest) done.length fuel, badEntry cols e = false := by
  intro fuel
  induction fuel with
  | zero =>
    intro done rest hnd hdone hadj hlen e he
    have hre : rest = [] := List.length_eq_zero.mp (Nat.le_zero.mp hlen)
    subst hre
    rw [List.append_nil] at he
    exact hdone e he
  | succ n ih =>
    intro done rest hnd hdone hadj hlen e he
    cases rest with
    | nil =>
      rw [pruneLoop_out cols _ _ _ (by simp)] at he
      rw [List.append_nil] at he
      exact hdone e he
    | cons c rest' =>
      have hg : (done ++ c :: rest')[done.length]? = some c := by
        rw [List.getElem?_append_right (Nat.le_refl _)]
        simp
      rw [pruneLoop_cons_eq cols _ _ n c hg] at he
      by_cases hbad : badEntry cols c = true
      · rw [if_pos hbad] at he
        have hcd : c ∉ done := by
          intro hmem
          exact (List.nodup_append.mp hnd).2.2 hmem (List.mem_cons_self c rest')
        rw [removeFirst_append_self c rest' done hcd] at he
        have hnd' : (done ++ rest').Nodup :=
          ((List.sublist_cons_self c rest').append_left done).nodup hnd
        cases rest' with
        | nil =>
          rw [pruneLoop_out cols _ _ _ (by simp)] at he
          rw [List.append_nil] at he
          exact hdone e he
        | cons d rest'' =>
          have hd : badEntry cols d = false := by
            unfold noAdjBad at hadj
            have h1 := (Bool.and_eq_true _ _ ▸ hadj).1
            rw [hbad] at h1
            cases hdd : badEntry cols d
            · rfl
            · rw [hdd] at h1
              exact Bool.noConfusion h1
          have hre : done ++ d :: rest'' = (done ++ [d]) ++ rest'' := by simp
          have hlen' : done.length + 1 = (done ++ [d]).length := by simp
          rw [hre, hlen'] at he
          refine ih (done ++ [d]) rest'' ?_ ?_ ?_ ?_ e he
          · rw [← hre]
            exact hnd'
          · intro x hx
            rcases List.mem_append.mp hx with hx | hx
            · exact hdone x hx
            · rw [List.mem_singleton.mp hx]
              exact hd
          · exact noAdjBad_tail cols (noAdjBad_tail cols hadj)
          · have := Nat.le_of_succ_le_succ hlen
            simpa using Nat.le_of_succ_le this
      · rw [if_neg hbad] at he
        have hcgood : badEntry cols c = false := by
          cases hcc : badEntry cols c
          · rfl
          · exact absurd hcc hbad
        have hre : done ++ c :: rest' = (done ++ [c]) ++ rest' := by simp
        have hlen' : done.length + 1 = (done ++ [c]).length := by simp
        rw [hre, hlen'] at he
        refine ih (done ++ [c]) rest' ?_ ?_ ?_ ?_ e he
        · rw [← hre]
          exact hnd
        · intro x hx
          rcases List.mem_append.mp hx with hx | hx
          · exact hdone x hx
          · rw [List.mem_singleton.mp hx]
            exact hcgood
        · exact noAdjBad_tail cols hadj
        · exact Nat.le_of_succ_le_succ hlen

/-- Claim C3, as stated, is false: two hallucinated columns in a row
defeat the pruning, because `list.remove` during iteration makes the
iterator skip the element that slides into the removed slot.  After
translating `SELECT a1, bad1, bad2 FROM Account`, the entry `bad2` is
still in the field list even though it has no parenthesis and is not an
`Account` column. -/
theorem c3_pruning_counterexample :
    "bad2".toList ∈ finalFields "SELECT a1, bad1, bad2 FROM Account".toList accountSchema false ∧
    "bad2".toList ∉ (["Id", "a1", "a2", "a3", "OwnerId"].map String.toList) ∧
    ("bad2".toList).contains '(' = false := by
  refine ⟨by decide, by decide, by decide⟩

/-- Claim C3 (amended): hallucinated-column pruning is complete provided
no two hallucinated entries are adjacent in the tokenized field list, the
tokenized list has no duplicates, and the forced-key insertion cannot
inject a hallucinated `Id` (i.e. `Id` is a schema column or the flag is
off): then after fixup every paren-free entry of the field list is a
schema column. -/
theorem c3_pruning_amended (sql : Str) (schema : Schema) (addId : Bool)
    (c : Clauses) (cols : List Str)
    (hp : parseClauses sql = some c)
    (hlk : lookupSchema c.table schema = some cols)
    (hnd : c.listFields.Nodup)
    (hadj : noAdjBad cols c.listFields = true)
    (hid : "Id".toList ∈ cols ∨ addId = false) :
    ∀ e ∈ finalFields sql schema addId, e.contains '(' = false → e ∈ cols := by
  have main : ∀ e ∈ finalFields sql schema addId, badEntry cols e = false := by
    unfold finalFields
    rw [hp]
    show ∀ e ∈ (fixupFields c schema addId).listFields, badEntry cols e = false
    by_cases hfw : c.fields = ['*']
    · have hagg : c.aggregate = false := by
        rw [parseClauses_aggregate hp, hfw]
        rfl
      rw [fixupFields_wildcard c schema addId cols hfw hlk hagg]
      have hcond : (cols.contains "Id".toList || !addId) = true := by
        rcases hid with hid | hid
        · rw [(by simpa using hid : cols.contains "Id".toList = true)]
          rfl
        · rw [hid]
          simp
      rw [if_pos hcond]
      intro e he
      unfold badEntry
      rw [(by simpa using he : cols.contains e = true)]
      simp
    · obtain ⟨flds3, mid, hmid, hshape⟩ := fixupFields_nonwild_known c schema addId cols hfw hlk
      have hmidprops : mid.Nodup ∧ noAdjBad cols mid = true := by
        rcases hmid with hmid | ⟨hnot, -, haddId, hmid⟩
        · exact hmid ▸ ⟨hnd, hadj⟩
        · have hidcols : ("Id".toList : Str) ∈ cols := by
            rcases hid with hid | hid
            · exact hid
            · rw [hid] at haddId
              exact absurd haddId (by simp)
          have hgood : badEntry cols "Id".toList = false := by
            unfold badEntry
            rw [(by simpa using hidcols : cols.contains "Id".toList = true)]
            simp
          refine hmid ▸ ⟨?_, ?_⟩
          · exact List.nodup_append.mpr
              ⟨hnd, List.nodup_singleton _, List.disjoint_singleton.mpr hnot⟩
          · exact noAdjBad_append_good cols c.listFields ["Id".toList] hadj
              (fun x hx => (List.mem_singleton.mp hx) ▸ hgood)
      rcases hshape with ⟨-, -, heq⟩ | ⟨-, heq⟩
      · rw [heq]
        obtain ⟨ex, hex, hexcols⟩ := fkLoop_append cols flds3 mid
        have hexgood : ∀ x ∈ ex, badEntry cols x = false := by
          intro x hx
          unfold badEntry
          rw [(by simpa using hexcols x hx : cols.contains x = true)]
          simp
        intro e he
        rw [hex] at he
        have h0 : (([] : List Str) ++ (mid ++ ex)) = mid ++ ex := by simp
        refine pruneLoop_aux cols (mid ++ ex).length [] (mid ++ ex) ?_ ?_ ?_ ?_ e ?_
        · rw [h0]
          rw [← hex]
          exact fkLoop_nodup cols flds3 mid hmidprops.1
        · intro x hx
          exact absurd hx (List.not_mem_nil x)
        · exact noAdjBad_append_good cols mid ex hmidprops.2 hexgood
        · exact Nat.le_refl _
        · rw [h0]
          exact he
      · rw [heq]
        intro e he
        have h0 : (([] : List Str) ++ mid) = mid := by simp
        refine pruneLoop_aux cols mid.length [] mid ?_ ?_ ?_ ?_ e ?_
        · rw [h0]
          exact hmidprops.1
        · intro x hx
          exact absurd hx (List.not_mem_nil x)
        · exact hmidprops.2
        · exact Nat.le_refl _
        · rw [h0]
          exact he
  intro e he hpar
  have hb := main e he
  unfold badEntry at hb
  rw [hpar] at hb
  simp only [Bool.not_false, Bool.true_and, Bool.not_eq_false'] at hb
  simpa using hb

theorem c3_pruning_witness :
    "a1".toList ∈ (["Id", "a1", "a2", "a3", "OwnerId"].map String.toList) :=
  c3_pruning_amended "SELECT a1, bad1 FROM Account".toList accountSchema false
    ⟨"a1, bad1".toList, ["a1".toList, "bad1".toList], false, "Account".toList,
      none, none, none, none⟩
    (["Id", "a1", "a2", "a3", "OwnerId"].map String.toList)
    (by decide) (by decide) (by decide) (by decide) (Or.inr rfl)
    "a1".toList (by decide) (by decide)

/-! ## Date-literal unquoting -/

/-- Contiguous-substring predicate. -/
def isSubstr (t s : Str) : Prop := ∃ p q, s = p ++ t ++ q

def notQuote (ch : Char) : Bool := ch ≠ '\''

theorem notQuote_quote : notQuote '\'' = false := by decide

theorem isSubstr_append_left {t x : Str} (z : Str) (h : isSubstr t x) :
    isSubstr t (x ++ z) := by
  obtain ⟨p, q, rfl⟩ := h
  exact ⟨p, q ++ z, by simp⟩

theorem isSubstr_append_right {t x : Str} (z : Str) (h : isSubstr t x) :
    isSubstr t (z ++ x) := by
  obtain ⟨p, q, rfl⟩ := h
  exact ⟨z ++ p, q, by simp⟩

/-- A substring avoiding `c` lies wholly on one side of any occurrence
of `c`. -/
theorem isSubstr_split {t x y : Str} {c : Char} (hc : c ∉ t)
    (h : isSubstr t (x ++ c :: y)) : isSubstr t x ∨ isSubstr t y := by
  obtain ⟨p, q, e⟩ := h
  by_cases h1 : p.length + t.length ≤ x.length
  · left
    have hx : x = List.take x.length (p ++ t ++ q) := by
      rw [← e, List.take_left]
    rw [List.take_append_eq_append_take, List.take_append_eq_append_take] at hx
    rw [List.take_of_length_le (by omega : p.length ≤ x.length)] at hx
    rw [List.take_of_length_le (by omega : t.length ≤ x.length - p.length)] at hx
    exact ⟨p, _, hx⟩
  · by_cases h2 : x.length + 1 ≤ p.length
    · right
      have hy : y = List.drop (x.length + 1) (p ++ t ++ q) := by
        rw [← e, List.drop_append_eq_append_drop]
        rw [List.drop_of_length_le (by simp : x.length ≤ x.length + 1)]
        simp
      rw [List.drop_append_eq_append_drop, List.drop_append_eq_append_drop] at hy
      rw [(by omega : x.length + 1 - p.length = 0), List.drop_zero] at hy
      rw [(by simp only [List.length_append]; omega :
        x.length + 1 - (p ++ t).length = 0), List.drop_zero] at hy
      exact ⟨List.drop (x.length + 1) p, q, by rw [hy, List.append_assoc]⟩
    · exfalso
      have hlt : x.length < p.length + t.length := by omega
      have hge : p.length ≤ x.length := by omega
      have hL : (x ++ c :: y)[x.length]? = some c := by
        rw [List.getElem?_append_right (Nat.le_refl _)]
        simp
      have hR : (p ++ t ++ q)[x.length]? = t[x.length - p.length]? := by
        rw [List.getElem?_append, if_pos (by simp; omega)]
        rw [List.getElem?_append_right hge]
      rw [e, hR] at hL
      exact hc (mem_of_getElemOpt hL)

/-- Erasing the element sitting exactly after a prefix. -/
theorem eraseIdx_boundary (c : Char) (y : Str) : ∀ (x : Str),
    (x ++ c :: y).eraseIdx x.length = x ++ y := by
  intro x
  induction x with
  | nil => rfl
  | cons a xs ih =>
    show ((a :: (xs ++ c :: y)).eraseIdx (xs.length + 1) : Str) = a :: (xs ++ y)
    rw [List.eraseIdx_cons_succ, ih]

theorem isDigitChar_ne_quote {ch : Char} (h : isDigitChar ch = true) : ch ≠ '\'' := by
  intro he
  rw [he] at h
  exact Bool.noConfusion h

/-- Shape of a `\d{1,2}`+terminator match. -/
theorem mdTwo_shape {term : Char} {s : Str} {n : Nat} {r' : Str}
    (h : mdTwo term s = some (n, r')) :
    ∃ body, s = body ++ term :: r' ∧ (∀ ch ∈ body, isDigitChar ch = true) ∧
      n = body.length + 1 := by
  unfold mdTwo at h
  split at h
  · rename_i a b r
    split at h
    · rename_i ha
      split at h
      · rename_i hb
        split at h
        · rename_i t r2
          split at h
          · rename_i ht
            injection h with h
            injection h with h1 h2
            subst h1
            subst h2
            refine ⟨[a, b], by rw [ht]; rfl, ?_, rfl⟩
            intro ch hch
            rcases List.mem_cons.mp hch with rfl | hch
            · exact ha
            · rcases List.mem_cons.mp hch with rfl | hch
              · exact hb
              · exact absurd hch (List.not_mem_nil ch)
          · exact absurd h (fun hh => Option.noConfusion hh)
        · exact absurd h (fun hh => Option.noConfusion hh)
      · split at h
        · rename_i hb
          injection h with h
          injection h with h1 h2
          subst h1
          subst h2
          refine ⟨[a], by rw [hb]; rfl, ?_, rfl⟩
          intro ch hch
          rcases List.mem_cons.mp hch with rfl | hch
          · exact ha
          · exact absurd hch (List.not_mem_nil ch)
        · exact absurd h (fun hh => Option.noConfusion hh)
    · exact absurd h (fun hh => Option.noConfusion hh)
  · exact absurd h (fun hh => Option.noConfusion hh)

/-- Shape of a quoted-date match: an opening quote, a quote-free body,
and a closing quote. -/
theorem matchDateLen_shape {s : Str} {n : Nat} (h : matchDateLen s = some n) :
    ∃ body rest, s = '\'' :: body ++ '\'' :: rest ∧ (∀ ch ∈ body, ch ≠ '\'') ∧
      n = body.length + 2 := by
  unfold matchDateLen at h
  split at h
  · rename_i q d1 d2 d3 d4 hsep r
    split at h
    · rename_i hq
      simp only [Bool.and_eq_true, decide_eq_true_eq] at hq
      obtain ⟨⟨⟨⟨⟨hq, h1⟩, h2⟩, h3⟩, h4⟩, hh⟩ := hq
      split at h
      · rename_i n1 r2 hmd1
        split at h
        · rename_i n2 r4 hmd2
          injection h with h
          obtain ⟨b1, hb1, hd1, hn1⟩ := mdTwo_shape hmd1
          obtain ⟨b2, hb2, hd2, hn2⟩ := mdTwo_shape hmd2
          refine ⟨[d1, d2, d3, d4, '-'] ++ b1 ++ ['-'] ++ b2, r4, ?_, ?_, ?_⟩
          · subst hq hh
            rw [hb1, hb2]
            simp
          · intro ch hch
            simp only [List.append_assoc, List.mem_append, List.mem_cons,
              List.not_mem_nil, or_false] at hch
            rcases hch with (rfl | rfl | rfl | rfl | rfl) | hch
            · exact isDigitChar_ne_quote h1
            · exact isDigitChar_ne_quote h2
            · exact isDigitChar_ne_quote h3
            · exact isDigitChar_ne_quote h4
            · decide
            rcases hch with hch | hch
            · exact isDigitChar_ne_quote (hd1 ch hch)
            rcases hch with rfl | hch
            · decide
            · exact isDigitChar_ne_quote (hd2 ch hch)
          · rw [← h]
            simp only [List.length_append, List.length_cons]
            simp
            omega
        · exact absurd h (fun hh => Option.noConfusion hh)
      · exact absurd h (fun hh => Option.noConfusion hh)
    · exact absurd h (fun hh => Option.noConfusion hh)
  · exact absurd h (fun hh => Option.noConfusion hh)

/-- Decomposition carried by a successful date search. -/
theorem findDateAux_shape : ∀ (s : Str) (i f l : Nat),
    findDateAux i s = some (f, l) →
    ∃ a r, s = a ++ r ∧ i ≤ f ∧ a.length = f - i ∧ matchDateLen r = some (l - f) := by
  intro s
  induction s with
  | nil => intro i f l h; exact absurd h (fun hh => Option.noConfusion hh)
  | cons c rr ih =>
    intro i f l h
    unfold findDateAux at h
    split at h
    · rename_i n hm
      injection h with h
      injection h with h1 h2
      subst h1
      refine ⟨[], c :: rr, rfl, Nat.le_refl _, by simp, ?_⟩
      rw [(by omega : l - i = n)]
      exact hm
    · obtain ⟨a, r, hsr, hif, hal, hm⟩ := ih (i + 1) f l h
      refine ⟨c :: a, r, by rw [hsr]; rfl, by omega, ?_, hm⟩
      simp only [List.length_cons, hal]
      omega

/-- One iteration of the unquoting loop: both erased characters are the
quotes of the first matched date literal. -/
theorem unquote_step {w : Str} {f l : Nat} (h : findDate w = some (f, l)) :
    ∃ a body rest, w = a ++ '\'' :: (body ++ '\'' :: rest) ∧ a.length = f ∧
      (∀ ch ∈ body, ch ≠ '\'') ∧
      (w.eraseIdx (l - 1)).eraseIdx f = a ++ (body ++ rest) ∧
      w.length = (a ++ (body ++ rest)).length + 2 := by
  obtain ⟨a, r, rfl, -, hal, hm⟩ := findDateAux_shape w 0 f l h
  obtain ⟨body, rest, rfl, hbody, hn⟩ := matchDateLen_shape hm
  simp only [Nat.sub_zero] at hal
  refine ⟨a, body, rest, by simp, hal, hbody, ?_, by simp; omega⟩
  have hl : l - 1 = (a ++ '\'' :: body).length := by
    simp only [List.length_append, List.length_cons]
    omega
  rw [(by simp : a ++ ('\'' :: body ++ '\'' :: rest) = (a ++ '\'' :: body) ++ '\'' :: rest)]
  rw [hl, eraseIdx_boundary '\'' rest (a ++ '\'' :: body)]
  rw [(by simp : (a ++ '\'' :: body) ++ rest = a ++ '\'' :: (body ++ rest))]
  rw [← hal]
  exact eraseIdx_boundary '\'' (body ++ rest) a

/-- One unfolding of the unquoting loop on a successful search. -/
theorem unquoteDates_step {w : Str} {f l : Nat} (n : Nat) (h : findDate w = some (f, l)) :
    unquoteDates w (n + 1) = unquoteDates ((w.eraseIdx (l - 1)).eraseIdx f) n := by
  conv_lhs => unfold unquoteDates
  rw [h]

/-- The unquoting loop reaches its fixed point (no quoted date remains),
only ever deletes quote characters, and preserves every quote-free
substring. -/
theorem unquoteDates_spec : ∀ (fuel : Nat) (w : Str), w.length < fuel →
    findDate (unquoteDates w fuel) = none ∧
    (unquoteDates w fuel).Sublist w ∧
    (unquoteDates w fuel).filter notQuote = w.filter notQuote ∧
    ∀ t : Str, '\'' ∉ t → isSubstr t w → isSubstr t (unquoteDates w fuel) := by
  intro fuel
  induction fuel with
  | zero => intro w hw; exact absurd hw (by omega)
  | succ n ih =>
    intro w hw
    cases hfd : findDate w with
    | none =>
      have he : unquoteDates w (n + 1) = w := by
        conv_lhs => unfold unquoteDates
        rw [hfd]
      rw [he]
      exact ⟨hfd, List.Sublist.refl w, rfl, fun t _ ht => ht⟩
    | some pr =>
      obtain ⟨f, l⟩ := pr
      obtain ⟨a, body, rest, hww, hal, hbody, herase, hlen⟩ := unquote_step hfd
      rw [unquoteDates_step n hfd, herase]
      have hlt : (a ++ (body ++ rest)).length < n := by omega
      obtain ⟨ihn, ihs, ihf, ihsub⟩ := ih (a ++ (body ++ rest)) hlt
      refine ⟨ihn, ?_, ?_, ?_⟩
      · refine ihs.trans ?_
        rw [hww]
        refine List.Sublist.append_left ?_ a
        exact List.Sublist.cons '\'' (List.Sublist.append_left (List.Sublist.cons '\'' (List.Sublist.refl rest)) body)
      · rw [ihf, hww]
        simp only [List.filter_append, List.filter_cons, notQuote_quote]
        simp
      · intro t hqf ht
        refine ihsub t hqf ?_
        rw [hww] at ht
        rcases isSubstr_split hqf ht with ht | ht
        · exact isSubstr_append_left _ ht
        · rcases isSubstr_split hqf ht with ht | ht
          · exact isSubstr_append_right a (isSubstr_append_left rest ht)
          · exact isSubstr_append_right a (isSubstr_append_right body ht)

/-- Claim C7: the WHERE-clause fix-up removes every single-quoted ISO
date literal (the fixed-point loop terminates with no match left), it
deletes nothing but quote characters (the result is a sublist of its
input with the same quote-free characters), and every quote-free
substring — in particular each bare date value — survives into the
output. -/
theorem c7_date_unquoting (w0 : Str) (_hw : findDate (applyPseudoSubs w0) ≠ none) :
    findDate (fixWhere w0) = none ∧
    (fixWhere w0).Sublist (applyPseudoSubs w0) ∧
    (fixWhere w0).filter notQuote = (applyPseudoSubs w0).filter notQuote ∧
    ∀ t : Str, '\'' ∉ t → isSubstr t (applyPseudoSubs w0) → isSubstr t (fixWhere w0) :=
  unquoteDates_spec ((applyPseudoSubs w0).length + 1) (applyPseudoSubs w0) (by omega)

theorem c7_date_witness :
    findDate (applyPseudoSubs "d > '2023-01-01'".toList) ≠ none ∧
    findDate (fixWhere "d > '2023-01-01'".toList) = none ∧
    isSubstr "2023-01-01".toList (fixWhere "d > '2023-01-01'".toList) := by
  refine ⟨by decide, (c7_date_unquoting _ (by decide)).1, ?_⟩
  refine (c7_date_unquoting "d > '2023-01-01'".toList (by decide)).2.2.2
    "2023-01-01".toList (by decide) ⟨"d > '".toList, "'".toList, by decide⟩

end ChatSF
